import Mathlib

/-!
Verification of the GIF89a encoder (2-color pixel-art animations):
a shallow embedding of the byte-stream builder, the hex color resolver,
the GIF-variant LZW compressor, the sub-block packer and the document
assembler, together with theorems about the properties the encoder is
documented to have.

Machine integers are modelled as `Nat` with explicit `% 256` masking at the
points where the source masks with `& 0xff`.  JavaScript `v & 0xff` and
`(v >> 8) & 0xff` coincide with `v % 256` and `v / 256 % 256` for every
natural `v` (the 32-bit wrap-around of JS bitwise operators is a multiple of
256 and so invisible modulo 256), so these are exact translations.
-/

-- ---------------------------------------------------------------------------
-- Byte-stream helpers (class ByteStream of the source)
-- ---------------------------------------------------------------------------

/-- `ByteStream.byte`: append a single byte, masked to 0-255. -/
def bByte (v : Nat) : List Nat := [v % 256]

/-- `ByteStream.word`: append a 16-bit little-endian word
(`v & 0xff`, then `(v >> 8) & 0xff`). -/
def bWord (v : Nat) : List Nat := [v % 256, v / 256 % 256]

/-- `ByteStream.ascii`: append a string as one byte per character
(`charCodeAt(i) & 0xff`). -/
def asciiBytes (s : String) : List Nat := s.data.map (fun c => c.toNat % 256)

-- ---------------------------------------------------------------------------
-- Color resolver (hexToRgb of the source)
-- ---------------------------------------------------------------------------

/-- JavaScript whitespace accepted by `parseInt` before the number. -/
def isJsSpace (c : Char) : Bool :=
  c = ' ' || c = '\t' || c = '\n' || c = '\r' || c = '\x0b' || c = '\x0c'

/-- Value of one hexadecimal digit, `none` for a non-digit. -/
def hexDigitVal (c : Char) : Option Nat :=
  if '0' ≤ c ∧ c ≤ '9' then some (c.toNat - '0'.toNat)
  else if 'a' ≤ c ∧ c ≤ 'f' then some (c.toNat - 'a'.toNat + 10)
  else if 'A' ≤ c ∧ c ≤ 'F' then some (c.toNat - 'A'.toNat + 10)
  else none

/-- Accumulate the longest hex-digit prefix of a character list. -/
def hexAccum : List Char → Nat → Nat
  | [], acc => acc
  | c :: cs, acc =>
    match hexDigitVal c with
    | some d => hexAccum cs (acc * 16 + d)
    | none => acc

/-- Model of JavaScript `parseInt(s, 16)`: skip whitespace, optional sign,
optional `0x`/`0X` prefix, then the longest hex-digit prefix; `none` models
`NaN` (no digit found). -/
def parseIntHex (s : List Char) : Option Int :=
  let cs := s.dropWhile isJsSpace
  let sc : Int × List Char :=
    match cs with
    | '-' :: rest => (-1, rest)
    | '+' :: rest => (1, rest)
    | rest => (1, rest)
  let body : List Char :=
    match sc.2 with
    | '0' :: 'x' :: rest => rest
    | '0' :: 'X' :: rest => rest
    | rest => rest
  match body with
  | [] => none
  | c :: _ =>
    match hexDigitVal c with
    | some _ => some (sc.1 * (hexAccum body 0 : Int))
    | none => none

/-- `String.replace('#', '')` of the source: JavaScript `replace` with a
string pattern removes only the first occurrence. -/
def replaceFirstHash : List Char → List Char
  | [] => []
  | c :: cs => if c = '#' then cs else c :: replaceFirstHash cs

/-- `hexToRgb` of the source: strip the first `#`, then
`parseInt(h.slice(0,2),16)`, `parseInt(h.slice(2,4),16)`,
`parseInt(h.slice(4,6),16)`.  A `none` component models `NaN`. -/
def hexToRgb (hex : String) : List (Option Int) :=
  let h := replaceFirstHash hex.data
  [parseIntHex ((h.drop 0).take 2),
   parseIntHex ((h.drop 2).take 2),
   parseIntHex ((h.drop 4).take 2)]

/-- Masking a parsed component to a byte, as `ByteStream.byte` does:
JavaScript `NaN & 0xff = 0`, and a negative number is masked to its low
two's-complement byte, which is `Int.emod 256`. -/
def maskComponent : Option Int → Nat
  | none => 0
  | some z => (z % 256).toNat

/-- `ByteStream.bytes` applied to a parsed RGB triple. -/
def bytesMask (l : List (Option Int)) : List Nat := l.map maskComponent

-- ---------------------------------------------------------------------------
-- LZW encoder (GIF variant) — lzwCompress of the source
-- ---------------------------------------------------------------------------

/-- The mutable state of `lzwCompress`.  The code table models the source's
`Map<string, number>`: the seed key `":i"` is `(none, i)` and a compound key
`"p:s"` is `(some p, s)` (a numeral never prints as the empty string, so the
two key shapes never collide, exactly as the two string shapes never do).
`trace` is a ghost field recording every `(code, width)` pair passed to
`emitCode`; no other field depends on it. -/
structure LzwState where
  table : List ((Option Nat × Nat) × Nat)
  nextCode : Nat
  codeWidth : Nat
  pfx : Nat
  bitBuf : Nat
  bitLen : Nat
  rawBytes : List Nat
  trace : List (Nat × Nat)
deriving DecidableEq

/-- The `while (bitLen >= 8)` drain loop of `emitCode`: move completed bytes
from the bit buffer into the output. -/
def drainBits : Nat → Nat → List Nat → Nat × Nat × List Nat
  | buf, len + 8, out => drainBits (buf / 256) len (out ++ [buf % 256])
  | buf, len, out => (buf, len, out)

/-- `emitCode` of the source: or the code into the bit buffer above the
pending bits (`bitBuf |= code << bitLen`), grow the pending-bit count by the
code width, and drain completed bytes. -/
def emitCode (s : LzwState) (code width : Nat) : LzwState :=
  let r := drainBits (s.bitBuf ||| (code <<< s.bitLen)) (s.bitLen + width) s.rawBytes
  { s with bitBuf := r.1, bitLen := r.2.1, rawBytes := r.2.2,
           trace := s.trace ++ [(code, width)] }

/-- `buildTable` of the source: one seed entry `":i" → i` per literal. -/
def buildTable (clearCode : Nat) : List ((Option Nat × Nat) × Nat) :=
  (List.range clearCode).map (fun i => ((none, i), i))

/-- `Map.get`/`Map.has` of the source table (first match; the source never
inserts a key twice, so first-match and overwrite semantics agree). -/
def tableGet : List ((Option Nat × Nat) × Nat) → (Option Nat × Nat) → Option Nat
  | [], _ => none
  | kv :: rest, k => if kv.1 = k then some kv.2 else tableGet rest k

/-- One iteration of the main symbol loop of `lzwCompress`. -/
def lzwStep (clearCode eoiCode minCodeSize : Nat) (s : LzwState) (sym : Nat) :
    LzwState :=
  match tableGet s.table (some s.pfx, sym) with
  | some code => { s with pfx := code }
  | none =>
    let s1 := emitCode s s.pfx s.codeWidth
    if s1.nextCode ≤ 0xfff then
      let nc := s1.nextCode + 1
      { s1 with
        table := ((some s.pfx, sym), s1.nextCode) :: s1.table,
        nextCode := nc,
        codeWidth :=
          if 2 ^ s1.codeWidth < nc ∧ s1.codeWidth < 12 then s1.codeWidth + 1
          else s1.codeWidth,
        pfx := sym }
    else
      let s2 := emitCode s1 clearCode s1.codeWidth
      { s2 with table := buildTable clearCode, nextCode := eoiCode + 1,
                codeWidth := minCodeSize + 1, pfx := sym }

/-- State of `lzwCompress` just after the initial Clear code is emitted. -/
def lzwInit (clearCode eoiCode minCodeSize : Nat) : LzwState :=
  emitCode
    { table := buildTable clearCode, nextCode := eoiCode + 1,
      codeWidth := minCodeSize + 1, pfx := 0, bitBuf := 0, bitLen := 0,
      rawBytes := [], trace := [] }
    clearCode (minCodeSize + 1)

/-- Final state of `lzwCompress` just before the flush of the partial byte:
the initial Clear, then either EOI directly (empty input) or the symbol loop
followed by the final prefix and EOI emissions. -/
def lzwFinalState (pixels : List Nat) (minCodeSize : Nat) : LzwState :=
  let clearCode := 1 <<< minCodeSize
  let eoiCode := clearCode + 1
  let s1 := lzwInit clearCode eoiCode minCodeSize
  match pixels with
  | [] => emitCode s1 eoiCode s1.codeWidth
  | p :: rest =>
    let s2 := List.foldl (lzwStep clearCode eoiCode minCodeSize)
      { s1 with pfx := p } rest
    let s3 := emitCode s2 s2.pfx s2.codeWidth
    emitCode s3 eoiCode s3.codeWidth

/-- `lzwCompress` of the source: the raw byte output, with the remaining
partial byte flushed when present. -/
def lzwCompress (pixels : List Nat) (minCodeSize : Nat) : List Nat :=
  let s := lzwFinalState pixels minCodeSize
  if 0 < s.bitLen then s.rawBytes ++ [s.bitBuf % 256] else s.rawBytes

/-- Every state `lzwCompress` passes through: the state after the initial
Clear emission, the state after each loop iteration, and the final state. -/
def lzwStates (pixels : List Nat) (minCodeSize : Nat) : List LzwState :=
  let clearCode := 1 <<< minCodeSize
  let eoiCode := clearCode + 1
  let s1 := lzwInit clearCode eoiCode minCodeSize
  match pixels with
  | [] => [s1, lzwFinalState pixels minCodeSize]
  | p :: rest =>
    List.scanl (lzwStep clearCode eoiCode minCodeSize) { s1 with pfx := p } rest
      ++ [lzwFinalState pixels minCodeSize]

-- ---------------------------------------------------------------------------
-- Sub-block packing — packSubBlocks of the source
-- ---------------------------------------------------------------------------

/-- The `while (offset < data.length)` loop of `packSubBlocks`: one
length-prefixed chunk of `min 255` remaining bytes per iteration. -/
def packChunks (data : List Nat) : List Nat :=
  if h : data = [] then []
  else
    min 255 data.length :: (data.take (min 255 data.length)
      ++ packChunks (data.drop (min 255 data.length)))
termination_by data.length
decreasing_by
  simp only [List.length_drop]
  have hlen : 0 < data.length := List.length_pos.mpr h
  omega

/-- `packSubBlocks` of the source: the chunk loop, then the 0x00 terminator. -/
def packSubBlocks (data : List Nat) : List Nat := packChunks data ++ [0]

/-- Specification-side view of the same split: the list of payload chunks
(at most 255 bytes each), to compare `packSubBlocks` against. -/
def chunks255 (data : List Nat) : List (List Nat) :=
  if h : data = [] then []
  else data.take (min 255 data.length) :: chunks255 (data.drop (min 255 data.length))
termination_by data.length
decreasing_by
  simp only [List.length_drop]
  have hlen : 0 < data.length := List.length_pos.mpr h
  omega

-- ---------------------------------------------------------------------------
-- GIF document assembler — encodeGIF of the source
-- ---------------------------------------------------------------------------

/-- `Math.round(p / q)` for natural `p` and positive natural `q`:
JavaScript `Math.round` rounds half-way cases up, which for a non-negative
rational `p / q` is `(2p + q) / (2q)` in integer division. -/
def roundDiv (p q : Nat) : Nat := (2 * p + q) / (2 * q)

/-- `row?.[x] ? FG_IDX : TRANSPARENT_IDX` of the source: a missing row, a
missing cell, and a `false` cell all give index 0; a `true` cell gives 1. -/
def pixelOn (frame : List (List Bool)) (y x : Nat) : Bool :=
  (((frame.get? y).bind fun row => row.get? x).getD false)

/-- The pixel-index buffer of one frame (source loop over
`y`, `sy`, `x`, `sx`): each source pixel expands to a `scale × scale`
block, emitted row-major. -/
def framePixels (width height scale : Nat) (frame : List (List Bool)) :
    List Nat :=
  (List.range height).flatMap fun y =>
    (List.range scale).flatMap fun _sy =>
      (List.range width).flatMap fun x =>
        List.replicate scale (if pixelOn frame y x then 1 else 0)

/-- The 6-byte header `out.ascii("GIF89a")`. -/
def gifHeader : List Nat := asciiBytes "GIF89a"

/-- The 7-byte Logical Screen Descriptor: scaled width and height as
little-endian words, the packed flags byte `0b10110001`, background color
index 0, pixel aspect ratio 0. -/
def logicalScreenDescriptor (gifWidth gifHeight : Nat) : List Nat :=
  bWord gifWidth ++ bWord gifHeight ++ bByte 0b10110001 ++ bByte 0 ++ bByte 0

/-- The 12-byte Global Color Table: background entry, foreground entry, two
white filler entries. -/
def globalColorTable (bgRgb fgRgb : List (Option Int)) : List Nat :=
  bytesMask bgRgb ++ bytesMask fgRgb
    ++ [0xff, 0xff, 0xff] ++ [0xff, 0xff, 0xff]

/-- The 19-byte Netscape looping application extension. -/
def netscapeExt : List Nat :=
  bByte 0x21 ++ bByte 0xff ++ bByte 0x0b ++ asciiBytes "NETSCAPE"
    ++ asciiBytes "2.0" ++ bByte 0x03 ++ bByte 0x01 ++ bWord 0x0000 ++ bByte 0x00

/-- The 8-byte Graphics Control Extension of one frame: introducer, label,
block size, the packed byte (`0b00001000` with background, `0b00001001`
without), the delay word, transparent color index 0, terminator. -/
def graphicsControlExt (hasBg : Bool) (frameDelay : Nat) : List Nat :=
  bByte 0x21 ++ bByte 0xf9 ++ bByte 0x04
    ++ bByte (if hasBg then 0b00001000 else 0b00001001)
    ++ bWord frameDelay ++ bByte 0 ++ bByte 0x00

/-- The 10-byte Image Descriptor of one frame. -/
def imageDescriptor (gifWidth gifHeight : Nat) : List Nat :=
  bByte 0x2c ++ bWord 0 ++ bWord 0 ++ bWord gifWidth ++ bWord gifHeight
    ++ bByte 0x00

/-- Everything `encodeGIF` writes for one frame: the Graphics Control
Extension, the Image Descriptor, the LZW minimum code size byte, and the
sub-block-packed compressed pixel data. -/
def frameBlock (width height scale : Nat) (hasBg : Bool) (frameDelay : Nat)
    (frame : List (List Bool)) : List Nat :=
  graphicsControlExt hasBg frameDelay
    ++ imageDescriptor (width * scale) (height * scale)
    ++ bByte 2
    ++ packSubBlocks (lzwCompress (framePixels width height scale frame) 2)

/-- The source's `bgRgb`: `hasBg ? hexToRgb(bgColor!) : [0, 0, 0]`. -/
def bgRgbOf : Option String → List (Option Int)
  | some c => hexToRgb c
  | none => [some 0, some 0, some 0]

/-- The source's `safeFps = Math.max(1, Math.min(100, fps))`. -/
def safeFps (fps : Nat) : Nat := max 1 (min 100 fps)

/-- `encodeGIF` of the source: header, Logical Screen Descriptor, Global
Color Table, Netscape extension, one frame block per frame, trailer 0x3B.
The frame delay is `Math.round(100 / safeFps)` centiseconds. -/
def encodeGIF (width height : Nat) (frames : List (List (List Bool)))
    (fps : Nat) (scale : Nat := 8) (fgColor : String := "#000000")
    (bgColor : Option String := none) : List Nat :=
  gifHeader
    ++ logicalScreenDescriptor (width * scale) (height * scale)
    ++ globalColorTable (bgRgbOf bgColor) (hexToRgb fgColor)
    ++ netscapeExt
    ++ (frames.map
          (frameBlock width height scale bgColor.isSome
            (roundDiv 100 (safeFps fps)))).flatten
    ++ bByte 0x3b

-- ---------------------------------------------------------------------------
-- Byte-sequence observers used to state the marker-count properties
-- ---------------------------------------------------------------------------

/-- Number of occurrences of the byte `b` in a byte sequence. -/
def countByte (l : List Nat) (b : Nat) : Nat := l.count b

/-- Number of occurrences of the adjacent two-byte subsequence
`(0x21, 0xF9)` in a byte sequence. -/
def countPair21F9 : List Nat → Nat
  | a :: b :: rest =>
    (if a = 0x21 ∧ b = 0xf9 then 1 else 0) + countPair21F9 (b :: rest)
  | _ => 0

-- ---------------------------------------------------------------------------
-- C1 — empty input compression
-- ---------------------------------------------------------------------------

/-- C1: compressing the empty symbol sequence at minimum code size 2 emits
exactly the Clear code 4 and then the EOI code 5, each at width 3 bits, and
after the flush of the partial byte the output is the single byte 0x2C. -/
theorem lzw_empty_input_single_byte :
    lzwCompress [] 2 = [0x2c] ∧ (lzwFinalState [] 2).trace = [(4, 3), (5, 3)] := by
  decide

-- ---------------------------------------------------------------------------
-- C4 — Logical Screen Descriptor flags byte (code bug: color resolution)
-- ---------------------------------------------------------------------------

/-- C4: the flags byte of the Logical Screen Descriptor (output offset 10) is
0b10110001, whose color-resolution field (bits 6-4) is 3 — i.e. 4 bits per
primary — although the source's own comment above the literal says the field
is 1 ("2-bit colour"), which would be byte 0b10010001.  The
global-color-table flag (bit 7) is set and the table-size field (bits 2-0) is
1, i.e. 4 entries, as claimed. -/
theorem encodeGIF_flags_byte_color_resolution_bug :
    (encodeGIF 1 1 [] 10 1 "#000000" none)[10]? = some 0b10110001 ∧
    0b10110001 / 2 ^ 4 % 2 ^ 3 = 3 ∧ ¬ 0b10110001 / 2 ^ 4 % 2 ^ 3 = 1 ∧
    0b10110001 / 2 ^ 7 = 1 ∧ 2 ^ (0b10110001 % 2 ^ 3 + 1) = 4 := by
  decide

-- ---------------------------------------------------------------------------
-- C9 — header magic and trailer byte
-- ---------------------------------------------------------------------------

/-- C9: for every input, the output of encodeGIF begins with the six ASCII
bytes of "GIF89a" and its last byte is the trailer 0x3B. -/
theorem encodeGIF_header_and_trailer (width height fps scale : Nat)
    (frames : List (List (List Bool))) (fg : String) (bg : Option String) :
    (encodeGIF width height frames fps scale fg bg).take 6
        = [71, 73, 70, 56, 57, 97] ∧
    (encodeGIF width height frames fps scale fg bg).getLast? = some 0x3b := by
  refine ⟨rfl, ?_⟩
  simp [encodeGIF, bByte, List.getLast?_concat]

-- ---------------------------------------------------------------------------
-- C3 — marker counts
-- ---------------------------------------------------------------------------

/-- Prepending a byte never loses a (0x21, 0xF9) pair. -/
theorem countPair21F9_le_cons (a : Nat) (l : List Nat) :
    countPair21F9 l ≤ countPair21F9 (a :: l) := by
  cases l with
  | nil => simp [countPair21F9]
  | cons b t => simp only [countPair21F9]; omega

/-- Pair counting is superadditive under concatenation: the only pairs of
`a ++ b` beyond those of the parts straddle the boundary. -/
theorem countPair21F9_append_ge (a b : List Nat) :
    countPair21F9 a + countPair21F9 b ≤ countPair21F9 (a ++ b) := by
  induction a with
  | nil => simp [countPair21F9]
  | cons x xs ih =>
    cases xs with
    | nil =>
      have := countPair21F9_le_cons x b
      simp only [countPair21F9, List.cons_append, List.nil_append]
      omega
    | cons y ys =>
      simp only [List.cons_append] at ih ⊢
      simp only [countPair21F9] at ih ⊢
      omega

/-- A concatenation contains at least as many pairs as its middle part. -/
theorem countPair21F9_middle_le (pre mid post : List Nat) :
    countPair21F9 mid ≤ countPair21F9 (pre ++ mid ++ post) := by
  have h1 := countPair21F9_append_ge (pre ++ mid) post
  have h2 := countPair21F9_append_ge pre mid
  omega

/-- A concatenation contains at least as many occurrences of a byte as its
middle part. -/
theorem countByte_middle_le (pre mid post : List Nat) (b : Nat) :
    countByte mid b ≤ countByte (pre ++ mid ++ post) b := by
  simp only [countByte, List.count_append]
  omega

/-- Every frame block starts with the GCE marker pair (0x21, 0xF9). -/
theorem frameBlock_one_le_countPair (width height scale : Nat) (hasBg : Bool)
    (frameDelay : Nat) (frame : List (List Bool)) :
    1 ≤ countPair21F9 (frameBlock width height scale hasBg frameDelay frame) := by
  simp only [frameBlock, graphicsControlExt, bByte, List.cons_append,
    List.nil_append, List.append_assoc]
  norm_num [countPair21F9]

/-- Every frame block contains the Image Descriptor marker byte 0x2C. -/
theorem frameBlock_mem_2c (width height scale : Nat) (hasBg : Bool)
    (frameDelay : Nat) (frame : List (List Bool)) :
    (0x2c : Nat) ∈ frameBlock width height scale hasBg frameDelay frame := by
  simp [frameBlock, imageDescriptor, bByte, bWord]

/-- A flattened list of blocks has at least one pair per block that contains
one. -/
theorem length_le_countPair_flatten (blocks : List (List Nat))
    (h : ∀ b ∈ blocks, 1 ≤ countPair21F9 b) :
    blocks.length ≤ countPair21F9 blocks.flatten := by
  induction blocks with
  | nil => simp [countPair21F9]
  | cons b bs ih =>
    simp only [List.flatten_cons, List.length_cons]
    have h1 := countPair21F9_append_ge b bs.flatten
    have h2 := h b (by simp)
    have h3 := ih (fun x hx => h x (by simp [hx]))
    omega

/-- A flattened list of blocks has at least one occurrence of a byte per
block containing it. -/
theorem length_le_countByte_flatten (blocks : List (List Nat)) (v : Nat)
    (h : ∀ b ∈ blocks, v ∈ b) :
    blocks.length ≤ countByte blocks.flatten v := by
  induction blocks with
  | nil => simp [countByte]
  | cons b bs ih =>
    simp only [List.flatten_cons, List.length_cons, countByte, List.count_append]
    have h2 : 0 < b.count v := List.count_pos_iff.mpr (h b (by simp))
    have h3 := ih (fun x hx => h x (by simp [hx]))
    simp only [countByte] at h3
    omega

/-- C3 (counterexample): at width 63777, height 44, scale 1 and zero frames,
the scaled width word is the bytes (0x21, 0xF9) and the scaled height word
contains the byte 0x2C, so the output contains one occurrence of each marker
although the claim demands zero. -/
theorem encodeGIF_marker_count_not_exact :
    ¬ (countPair21F9 (encodeGIF 63777 44 [] 10 1 "#000000" none)
          = ([] : List (List (List Bool))).length ∧
       countByte (encodeGIF 63777 44 [] 10 1 "#000000" none) 0x2c
          = ([] : List (List (List Bool))).length) := by
  decide

/-- C3 (amended): for every input, the output of encodeGIF contains at least
N occurrences of the Graphics Control Extension marker pair (0x21, 0xF9) and
at least N occurrences of the Image Descriptor marker byte 0x2C, where N is
the number of input frames (bytes reachable through other fields, such as
dimension words, can add further occurrences). -/
theorem encodeGIF_marker_count_lower_bound (width height fps scale : Nat)
    (frames : List (List (List Bool))) (fg : String) (bg : Option String) :
    frames.length ≤ countPair21F9 (encodeGIF width height frames fps scale fg bg) ∧
    frames.length ≤ countByte (encodeGIF width height frames fps scale fg bg) 0x2c := by
  constructor
  · calc frames.length
        = (frames.map (frameBlock width height scale bg.isSome
            (roundDiv 100 (safeFps fps)))).length := (List.length_map _ _).symm
      _ ≤ countPair21F9 (frames.map (frameBlock width height scale bg.isSome
            (roundDiv 100 (safeFps fps)))).flatten := by
          refine length_le_countPair_flatten _ ?_
          intro b hb
          obtain ⟨f, _, rfl⟩ := List.mem_map.mp hb
          exact frameBlock_one_le_countPair _ _ _ _ _ _
      _ ≤ countPair21F9 (encodeGIF width height frames fps scale fg bg) := by
          simp only [encodeGIF]
          exact countPair21F9_middle_le _ _ _
  · calc frames.length
        = (frames.map (frameBlock width height scale bg.isSome
            (roundDiv 100 (safeFps fps)))).length := (List.length_map _ _).symm
      _ ≤ countByte (frames.map (frameBlock width height scale bg.isSome
            (roundDiv 100 (safeFps fps)))).flatten 0x2c := by
          refine length_le_countByte_flatten _ _ ?_
          intro b hb
          obtain ⟨f, _, rfl⟩ := List.mem_map.mp hb
          exact frameBlock_mem_2c _ _ _ _ _ _
      _ ≤ countByte (encodeGIF width height frames fps scale fg bg) 0x2c := by
          simp only [encodeGIF]
          exact countByte_middle_le _ _ _ _

-- ---------------------------------------------------------------------------
-- C8 — sub-block packing
-- ---------------------------------------------------------------------------

/-- The payload chunks of the packer reassemble to the input. -/
theorem chunks255_flatten (data : List Nat) : (chunks255 data).flatten = data := by
  induction data using chunks255.induct with
  | case1 => rw [chunks255]; simp
  | case2 d hd ih =>
    rw [chunks255]
    simp only [dif_neg hd, List.flatten_cons, ih]
    exact List.take_append_drop _ _

/-- The chunk loop of `packSubBlocks` emits each payload chunk preceded by
its one-byte length. -/
theorem packChunks_eq_flatMap (data : List Nat) :
    packChunks data = (chunks255 data).flatMap (fun c => c.length :: c) := by
  induction data using chunks255.induct with
  | case1 => rw [chunks255, packChunks]; simp
  | case2 d hd ih =>
    rw [chunks255, packChunks]
    simp only [dif_neg hd, List.flatMap_cons, ih, List.length_take]
    rw [show min (min 255 d.length) d.length = min 255 d.length by omega]
    simp

/-- Every payload chunk is nonempty and holds at most 255 bytes. -/
theorem chunks255_sizes (data : List Nat) :
    (chunks255 data).all (fun c => decide (0 < c.length ∧ c.length ≤ 255)) = true := by
  induction data using chunks255.induct with
  | case1 => rw [chunks255]; simp
  | case2 d hd ih =>
    rw [chunks255]
    simp only [dif_neg hd, List.all_cons, ih, Bool.and_true]
    rw [decide_eq_true_eq]
    have hpos : 0 < d.length := List.length_pos.mpr hd
    simp only [List.length_take]
    omega

/-- Length of the chunk-loop output: the payload plus one length byte per
chunk, i.e. `n + ceil(n / 255)`. -/
theorem packChunks_length (data : List Nat) :
    (packChunks data).length = data.length + (data.length + 254) / 255 := by
  induction data using chunks255.induct with
  | case1 => rw [packChunks]; simp
  | case2 d hd ih =>
    rw [packChunks]
    simp only [dif_neg hd, List.length_cons, List.length_append,
      List.length_take, List.length_drop, ih]
    have hpos : 0 < d.length := List.length_pos.mpr hd
    omega

/-- C8: packSubBlocks splits its input (empty included) into consecutive
chunks of 1 to 255 bytes, writes each chunk behind its one-byte length, and
appends one zero terminator; the chunk payloads concatenate back to the
input and the output length is `n + ceil(n / 255) + 1`. -/
theorem packSubBlocks_framing (data : List Nat) :
    packSubBlocks data
        = (chunks255 data).flatMap (fun c => c.length :: c) ++ [0] ∧
    (chunks255 data).flatten = data ∧
    (chunks255 data).all (fun c => decide (0 < c.length ∧ c.length ≤ 255))
        = true ∧
    (packSubBlocks data).length = data.length + (data.length + 254) / 255 + 1 := by
  refine ⟨?_, chunks255_flatten data, chunks255_sizes data, ?_⟩
  · rw [packSubBlocks, packChunks_eq_flatMap]
  · rw [packSubBlocks]
    simp [packChunks_length]

-- ---------------------------------------------------------------------------
-- C5 / C10 — frame pixel expansion
-- ---------------------------------------------------------------------------

/-- Length of a flatMap whose blocks all have the same length. -/
theorem flatMap_const_length {α β : Type} (g : α → List β) (k : Nat) :
    ∀ (l : List α), (∀ a ∈ l, (g a).length = k) →
      (l.flatMap g).length = l.length * k
  | [], _ => by simp
  | a :: t, h => by
    simp only [List.flatMap_cons, List.length_append, List.length_cons]
    rw [h a (by simp), flatMap_const_length g k t (fun x hx => h x (by simp [hx]))]
    ring

/-- Indexing into a flatMap whose blocks all have the same length `k`:
position `i` falls in block `i / k` at offset `i % k`. -/
theorem flatMap_const_getElem? {α β : Type} (g : α → List β) (k : Nat) :
    ∀ (l : List α) (i : Nat), (∀ a ∈ l, (g a).length = k) → i < l.length * k →
      (l.flatMap g)[i]? = (l[i / k]?).bind fun a => (g a)[i % k]?
  | [], i, _, hi => by simp at hi
  | a :: t, i, h, hi => by
    have hk : 0 < k := by
      rcases Nat.eq_zero_or_pos k with h0 | hpos
    
      · subst h0; simp at hi
      · exact hpos
    have hga : (g a).length = k := h a (by simp)
    by_cases hlt : i < k
    · rw [List.flatMap_cons, List.getElem?_append_left (by omega),
        Nat.div_eq_of_lt hlt, Nat.mod_eq_of_lt hlt]
      simp
    · have hge : k ≤ i := by omega
      have hit : i - k < t.length * k := by
        have hexp : (a :: t).length * k = t.length * k + k := by
          simp [List.length_cons]; ring
        omega
      rw [List.flatMap_cons, List.getElem?_append_right (by omega), hga,
        flatMap_const_getElem? g k t (i - k) (fun x hx => h x (by simp [hx])) hit,
        Nat.div_eq_sub_div hk hge, Nat.mod_eq_sub_mod hge]
      simp

/-- An in-range two-dimensional index into a row-major layout. -/
theorem mul_index_lt (a b A B : Nat) (ha : a < A) (hb : b < B) :
    a * B + b < A * B := by
  calc a * B + b < a * B + B := by omega
    _ = (a + 1) * B := by ring
    _ ≤ A * B := Nat.mul_le_mul_right B ha

/-- Quotient and remainder of a row-major index. -/
theorem row_major_div (q r K : Nat) (h : r < K) : (q * K + r) / K = q := by
  have hK : 0 < K := by omega
  rw [Nat.mul_comm q K, Nat.mul_add_div hK, Nat.div_eq_of_lt h]
  omega

/-- Remainder counterpart of `row_major_div`. -/
theorem row_major_mod (q r K : Nat) (h : r < K) : (q * K + r) % K = r := by
  rw [Nat.mul_comm q K, Nat.mul_add_mod, Nat.mod_eq_of_lt h]

/-- One scaled row of one source row of the frame buffer. -/
theorem framePixels_row_length (width scale : Nat) (frame : List (List Bool))
    (y : Nat) :
    ((List.range width).flatMap fun x =>
      List.replicate scale (if pixelOn frame y x then 1 else 0)).length
        = width * scale := by
  rw [flatMap_const_length _ scale _ (fun a _ => List.length_replicate _ _),
    List.length_range]

/-- All scaled rows of one source row of the frame buffer. -/
theorem framePixels_inner_length (width scale : Nat) (frame : List (List Bool))
    (y : Nat) :
    ((List.range scale).flatMap fun _sy =>
      (List.range width).flatMap fun x =>
        List.replicate scale (if pixelOn frame y x then 1 else 0)).length
        = scale * (width * scale) := by
  rw [flatMap_const_length _ (width * scale) _
      (fun a _ => framePixels_row_length width scale frame y),
    List.length_range]

/-- The frame buffer holds one index per scaled pixel. -/
theorem framePixels_length (width height scale : Nat) (frame : List (List Bool)) :
    (framePixels width height scale frame).length
      = (width * scale) * (height * scale) := by
  rw [framePixels, flatMap_const_length _ (scale * (width * scale)) _
      (fun a _ => framePixels_inner_length width scale frame a),
    List.length_range]
  ring

/-- Every value of the frame buffer is a palette index 0 or 1. -/
theorem framePixels_values (width height scale : Nat) (frame : List (List Bool)) :
    (framePixels width height scale frame).all
      (fun v => decide (v = 0 ∨ v = 1)) = true := by
  simp only [List.all_eq_true, framePixels, List.mem_flatMap, decide_eq_true_eq]
  rintro v ⟨y, _, sy, _, x, _, hv⟩
  have hval := List.eq_of_mem_replicate hv
  by_cases hp : pixelOn frame y x
  · simp [hp] at hval; simp [hval]
  · simp [hp] at hval; simp [hval]

/-- The scaled pixel at row `Y`, column `X` is exactly the source pixel at
row `Y / scale`, column `X / scale`. -/
theorem framePixels_getElem (width height scale : Nat) (frame : List (List Bool))
    (Y X : Nat) (hY : Y < height * scale) (hX : X < width * scale) :
    (framePixels width height scale frame)[Y * (width * scale) + X]?
      = some (if pixelOn frame (Y / scale) (X / scale) then 1 else 0) := by
  have hs : 0 < scale := by
    rcases Nat.eq_zero_or_pos scale with h0 | hpos
    · subst h0; simp at hY
    · exact hpos
  have hYq : Y / scale < height := (Nat.div_lt_iff_lt_mul hs).mpr hY
  have hXq : X / scale < width := (Nat.div_lt_iff_lt_mul hs).mpr hX
  have hYr : Y % scale < scale := Nat.mod_lt _ hs
  have hXr : X % scale < scale := Nat.mod_lt _ hs
  have hr1lt : (Y % scale) * (width * scale) + X < scale * (width * scale) :=
    mul_index_lt _ _ _ _ hYr hX
  have hdecomp : Y * (width * scale) + X
      = (Y / scale) * (scale * (width * scale))
        + ((Y % scale) * (width * scale) + X) := by
    conv_lhs => rw [← Nat.div_add_mod Y scale]
    ring
  have hbound : Y * (width * scale) + X
      < (List.range height).length * (scale * (width * scale)) := by
    rw [List.length_range, hdecomp]
    exact mul_index_lt _ _ _ _ hYq hr1lt
  rw [framePixels, flatMap_const_getElem? _ (scale * (width * scale))
      (List.range height) _ (fun a _ => framePixels_inner_length width scale frame a)
      hbound, hdecomp, row_major_div _ _ _ hr1lt, row_major_mod _ _ _ hr1lt,
    List.getElem?_range hYq]
  simp only [Option.some_bind]
  rw [flatMap_const_getElem? _ (width * scale) (List.range scale) _
      (fun a _ => framePixels_row_length width scale frame (Y / scale))
      (by rw [List.length_range]; exact hr1lt),
    row_major_div _ _ _ hX, row_major_mod _ _ _ hX, List.getElem?_range hYr]
  simp only [Option.some_bind]
  have hXd : X = (X / scale) * scale + X % scale := by
    conv_lhs => rw [← Nat.div_add_mod X scale]
    ring
  rw [hXd, flatMap_const_getElem? _ scale (List.range width) _
      (fun a _ => List.length_replicate _ _)
      (by rw [List.length_range]; exact mul_index_lt _ _ _ _ hXq hXr),
    row_major_div _ _ _ hXr, row_major_mod _ _ _ hXr, List.getElem?_range hXq]
  simp [List.getElem?_replicate_of_lt hXr]

/-- C5: for every frame, the pixel-index buffer has length
scaledWidth × scaledHeight, every value is 0 or 1, and the value at
row-major position (Y, X) of the scaled image is the palette index of the
source pixel at (Y / scale, X / scale): 1 exactly when that pixel is on, so
each source pixel expands to a scale × scale block of identical indices in
row-major order. -/
theorem framePixels_block_expansion (width height scale : Nat)
    (frame : List (List Bool)) (Y X : Nat)
    (hY : Y < height * scale) (hX : X < width * scale) :
    (framePixels width height scale frame).length
        = width * scale * (height * scale) ∧
    (framePixels width height scale frame).all
        (fun v => decide (v = 0 ∨ v = 1)) = true ∧
    (framePixels width height scale frame)[Y * (width * scale) + X]?
        = some (if pixelOn frame (Y / scale) (X / scale) then 1 else 0) :=
  ⟨framePixels_length width height scale frame,
   framePixels_values width height scale frame,
   framePixels_getElem width height scale frame Y X hY hX⟩

/-- Witness for C5 at width 2, height 1, scale 2, frame [[true, false]],
scaled position (1, 2): the source pixel (0, 1) is off, so the index is 0. -/
theorem framePixels_block_expansion_witness :
    (1 < 1 * 2 ∧ 2 < 2 * 2) ∧
    ((framePixels 2 1 2 [[true, false]]).length = 2 * 2 * (1 * 2) ∧
     (framePixels 2 1 2 [[true, false]]).all
        (fun v => decide (v = 0 ∨ v = 1)) = true ∧
     (framePixels 2 1 2 [[true, false]])[1 * (2 * 2) + 2]?
        = some (if pixelOn [[true, false]] (1 / 2) (2 / 2) then 1 else 0)) :=
  ⟨⟨by decide, by decide⟩,
   framePixels_block_expansion 2 1 2 [[true, false]] 1 2 (by decide) (by decide)⟩

/-- C10: encodeGIF is total over ragged frame arrays: a scaled position whose
source row is absent, or whose source row is too short for its column, is
encoded as palette index 0, and the document is still assembled completely,
ending in the trailer byte. -/
theorem encodeGIF_ragged_frames_transparent (width height scale fps : Nat)
    (fg : String) (bg : Option String) (frames : List (List (List Bool)))
    (frame : List (List Bool)) (Y X : Nat)
    (hY : Y < height * scale) (hX : X < width * scale)
    (hmiss : ((frame[Y / scale]?).bind fun row => row[X / scale]?) = none) :
    (framePixels width height scale frame)[Y * (width * scale) + X]? = some 0 ∧
    (encodeGIF width height frames fps scale fg bg).getLast? = some 0x3b := by
  constructor
  · rw [framePixels_getElem width height scale frame Y X hY hX]
    simp [pixelOn, List.get?_eq_getElem?, hmiss]
  · simp [encodeGIF, bByte, List.getLast?_concat]

/-- Witness for C10 at width 2, height 1, scale 1, a frame whose only row is
shorter than the width, scaled position (0, 1). -/
theorem encodeGIF_ragged_frames_transparent_witness :
    (0 < 1 * 1 ∧ 1 < 2 * 1 ∧
     ((([[true]] : List (List Bool))[0 / 1]?).bind
        fun row => row[1 / 1]?) = none) ∧
    ((framePixels 2 1 1 [[true]])[0 * (2 * 1) + 1]? = some 0 ∧
     (encodeGIF 2 1 [] 10 1 "#000000" none).getLast? = some 0x3b) :=
  ⟨⟨by decide, by decide, by decide⟩,
   encodeGIF_ragged_frames_transparent 2 1 1 10 "#000000" none [] [[true]] 0 1
     (by decide) (by decide) (by decide)⟩

-- ---------------------------------------------------------------------------
-- C6 — frame delay and rate clamping
-- ---------------------------------------------------------------------------

/-- C6: each frame's delay is `Math.round(100 / clamp(fps, 1, 100))`
centiseconds — the bytes at output offsets 48/49 (the delay word of the
first frame's GCE) are the little-endian encoding of that value — and the
whole output at rate 0 is identical to the output at rate 1 (delay 100),
and at rate 200 identical to rate 100 (delay 1), all other inputs equal. -/
theorem encodeGIF_frame_delay_clamped (width height scale : Nat)
    (frames : List (List (List Bool))) (fg : String) (bg : Option String)
    (fps : Nat) (f : List (List Bool)) (rest : List (List (List Bool))) :
    encodeGIF width height frames 0 scale fg bg
      = encodeGIF width height frames 1 scale fg bg ∧
    encodeGIF width height frames 200 scale fg bg
      = encodeGIF width height frames 100 scale fg bg ∧
    (encodeGIF width height (f :: rest) fps scale fg bg)[48]?
      = some (roundDiv 100 (safeFps fps) % 256) ∧
    (encodeGIF width height (f :: rest) fps scale fg bg)[49]?
      = some (roundDiv 100 (safeFps fps) / 256 % 256) ∧
    roundDiv 100 (safeFps 0) = 100 ∧ roundDiv 100 (safeFps 200) = 1 := by
  cases bg <;> exact ⟨rfl, rfl, rfl, rfl, rfl, rfl⟩

-- ---------------------------------------------------------------------------
-- C7 — Graphics Control Extension fields
-- ---------------------------------------------------------------------------

/-- C7: every input frame gets a Graphics Control Extension in the output
whose packed byte (offset 3 of the extension) has the transparent-color flag
(bit 0) set exactly when no background color was supplied, whose
disposal-method field (bits 4-2) is fixed to 2 (restore to background), and
whose transparent-color-index byte (offset 6) is written as 0
unconditionally. -/
theorem encodeGIF_gce_fields (width height scale fps : Nat) (fg : String)
    (bg : Option String) (frames : List (List (List Bool)))
    (frame : List (List Bool)) (hmem : frame ∈ frames) :
    (∃ pre suf, encodeGIF width height frames fps scale fg bg
        = pre ++ graphicsControlExt bg.isSome (roundDiv 100 (safeFps fps))
          ++ suf) ∧
    (graphicsControlExt bg.isSome (roundDiv 100 (safeFps fps)))[3]?
        = some (if bg = none then 9 else 8) ∧
    (if bg = none then (9 : Nat) else 8) % 2 = (if bg = none then 1 else 0) ∧
    (if bg = none then (9 : Nat) else 8) / 2 ^ 2 % 2 ^ 3 = 2 ∧
    (graphicsControlExt bg.isSome (roundDiv 100 (safeFps fps)))[6]? = some 0 := by
  constructor
  · obtain ⟨u, v, rfl⟩ := List.append_of_mem hmem
    refine ⟨gifHeader
        ++ logicalScreenDescriptor (width * scale) (height * scale)
        ++ globalColorTable (bgRgbOf bg) (hexToRgb fg) ++ netscapeExt
        ++ (u.map (frameBlock width height scale bg.isSome
            (roundDiv 100 (safeFps fps)))).flatten,
      imageDescriptor (width * scale) (height * scale) ++ bByte 2
        ++ packSubBlocks (lzwCompress (framePixels width height scale frame) 2)
        ++ ((v.map (frameBlock width height scale bg.isSome
            (roundDiv 100 (safeFps fps)))).flatten ++ bByte 0x3b), ?_⟩
    simp [encodeGIF, frameBlock, List.append_assoc]
  · cases bg <;> exact ⟨rfl, by simp, by simp, rfl⟩

/-- Witness for C7 at a single all-on 1×1 frame without background color:
the transparency flag is set, the disposal field is 2, the transparent
color index is 0. -/
theorem encodeGIF_gce_fields_witness :
    (([[true]] : List (List Bool)) ∈ [[[true]]] : Prop) ∧
    ((∃ pre suf, encodeGIF 1 1 [[[true]]] 10 1 "#000000" none
        = pre ++ graphicsControlExt (none : Option String).isSome
            (roundDiv 100 (safeFps 10)) ++ suf) ∧
     (graphicsControlExt (none : Option String).isSome
        (roundDiv 100 (safeFps 10)))[3]?
        = some (if (none : Option String) = none then 9 else 8) ∧
     (if (none : Option String) = none then (9 : Nat) else 8) % 2
        = (if (none : Option String) = none then 1 else 0) ∧
     (if (none : Option String) = none then (9 : Nat) else 8) / 2 ^ 2 % 2 ^ 3
        = 2 ∧
     (graphicsControlExt (none : Option String).isSome
        (roundDiv 100 (safeFps 10)))[6]? = some 0) :=
  ⟨by decide,
   encodeGIF_gce_fields 1 1 1 10 "#000000" none [[[true]]] [[true]] (by decide)⟩

-- ---------------------------------------------------------------------------
-- C2 — code width and table bounds of the LZW compressor
-- ---------------------------------------------------------------------------

/-- The loop invariant of lzwCompress at minimum code size 2: the code width
stays in [3, 12], every code held by the table is below 4096, and every code
emitted so far was emitted at a width in [3, 12]. -/
def LzwInv (s : LzwState) : Prop :=
  3 ≤ s.codeWidth ∧ s.codeWidth ≤ 12 ∧
  (∀ kv ∈ s.table, kv.2 < 4096) ∧
  (∀ cw ∈ s.trace, 3 ≤ cw.2 ∧ cw.2 ≤ 12)

@[simp] theorem emitCode_table (s : LzwState) (c w : Nat) :
    (emitCode s c w).table = s.table := rfl

@[simp] theorem emitCode_nextCode (s : LzwState) (c w : Nat) :
    (emitCode s c w).nextCode = s.nextCode := rfl

@[simp] theorem emitCode_codeWidth (s : LzwState) (c w : Nat) :
    (emitCode s c w).codeWidth = s.codeWidth := rfl

@[simp] theorem emitCode_pfx (s : LzwState) (c w : Nat) :
    (emitCode s c w).pfx = s.pfx := rfl

@[simp] theorem emitCode_trace (s : LzwState) (c w : Nat) :
    (emitCode s c w).trace = s.trace ++ [(c, w)] := rfl

/-- Emitting a code at the current width preserves the invariant. -/
theorem lzwInv_emit (s : LzwState) (c : Nat) (h : LzwInv s) :
    LzwInv (emitCode s c s.codeWidth) := by
  obtain ⟨h3, h12, htab, htr⟩ := h
  refine ⟨h3, h12, htab, ?_⟩
  intro cw hcw
  rw [emitCode_trace] at hcw
  rcases List.mem_append.mp hcw with hc | hc
  · exact htr cw hc
  · simp at hc; subst hc; exact ⟨h3, h12⟩

/-- All seed codes of a fresh table for minimum code size 2 are below 4096. -/
theorem buildTable_codes : ∀ kv ∈ buildTable 4, kv.2 < 4096 := by decide

/-- One loop iteration preserves the invariant. -/
theorem lzwStep_inv (s : LzwState) (sym : Nat) (h : LzwInv s) :
    LzwInv (lzwStep 4 5 2 s sym) := by
  obtain ⟨h3, h12, htab, htr⟩ := h
  cases hget : tableGet s.table (some s.pfx, sym) with
  | some code =>
    simp only [lzwStep, hget]
    exact ⟨h3, h12, htab, htr⟩
  | none =>
    simp only [lzwStep, hget]
    by_cases hnc : (emitCode s s.pfx s.codeWidth).nextCode ≤ 0xfff
    · simp only [if_pos hnc]
      have hemit := lzwInv_emit s s.pfx ⟨h3, h12, htab, htr⟩
      obtain ⟨e3, e12, etab, etr⟩ := hemit
      refine ⟨?_, ?_, ?_, etr⟩
      · dsimp only
        split
        · omega
        · exact e3
      · dsimp only
        split
        · rename_i hcond
          omega
        · exact e12
      · intro kv hkv
        rcases List.mem_cons.mp hkv with hk | hk
        · subst hk
          dsimp only
          rw [emitCode_nextCode] at hnc
          simpa using Nat.lt_succ_of_le hnc
        · exact etab kv hk
    · simp only [if_neg hnc]
      have hemit := lzwInv_emit s s.pfx ⟨h3, h12, htab, htr⟩
      have hemit2 := lzwInv_emit _ 4 hemit
      obtain ⟨e3, e12, etab, etr⟩ := hemit2
      exact ⟨Nat.le.refl, (by norm_num : (3 : Nat) ≤ 12), buildTable_codes, etr⟩

/-- The invariant holds of every state of a fold of the loop. -/
theorem lzwInv_foldl (l : List Nat) : ∀ (b : LzwState), LzwInv b →
    LzwInv (List.foldl (lzwStep 4 5 2) b l) := by
  induction l with
  | nil => intro b hb; exact hb
  | cons x xs ih =>
    intro b hb
    exact ih (lzwStep 4 5 2 b x) (lzwStep_inv b x hb)

/-- The invariant holds of every intermediate state of a scan of the loop. -/
theorem lzwInv_scanl (l : List Nat) : ∀ (b : LzwState), LzwInv b →
    ∀ st ∈ List.scanl (lzwStep 4 5 2) b l, LzwInv st := by
  induction l with
  | nil =>
    intro b hb st hst
    rw [List.scanl_nil] at hst
    simp at hst; subst hst; exact hb
  | cons x xs ih =>
    intro b hb st hst
    rw [List.scanl_cons] at hst
    rcases List.mem_append.mp hst with hs | hs
    · simp at hs; subst hs; exact hb
    · exact ih (lzwStep 4 5 2 b x) (lzwStep_inv b x hb) st hs

/-- The invariant holds right after the initial Clear code. -/
theorem lzwInv_init : LzwInv (lzwInit 4 5 2) := by
  refine ⟨by decide, by decide, ?_, by decide⟩
  exact buildTable_codes

/-- C2: for every input symbol sequence over symbols below 4 at minimum code
size 2, every code is emitted at a width between 3 and 12 bits, the code
width of every intermediate state stays in [3, 12], and no intermediate code
table ever holds a code numbered 4096 or above. -/
theorem lzw_code_width_and_table_bounds (pixels : List Nat)
    (h : pixels.all (fun s => decide (s < 4)) = true) :
    (lzwFinalState pixels 2).trace.all
        (fun cw => decide (3 ≤ cw.2 ∧ cw.2 ≤ 12)) = true ∧
    (lzwStates pixels 2).all
        (fun st => decide (3 ≤ st.codeWidth ∧ st.codeWidth ≤ 12)
          && st.table.all (fun kv => decide (kv.2 < 4096))) = true := by
  have hmain : ∀ st ∈ lzwStates pixels 2, LzwInv st ∧
      LzwInv (lzwFinalState pixels 2) := by
    intro st hst
    cases pixels with
    | nil =>
      have hfin : LzwInv (lzwFinalState [] 2) := by
        refine ⟨by decide, by decide, ?_, by decide⟩
        exact buildTable_codes
      simp only [lzwStates, List.mem_cons, List.not_mem_nil, or_false] at hst
      refine ⟨?_, hfin⟩
      rcases hst with h1 | h1
      · subst h1; exact lzwInv_init
      · subst h1; exact hfin
    | cons p rest =>
      have hinit : LzwInv { lzwInit 4 5 2 with pfx := p } := lzwInv_init
      have hfold := lzwInv_foldl rest _ hinit
      have hfin : LzwInv (lzwFinalState (p :: rest) 2) := by
        have h1 := lzwInv_emit _ (List.foldl (lzwStep 4 5 2)
          { lzwInit 4 5 2 with pfx := p } rest).pfx hfold
        exact lzwInv_emit _ 5 h1
      refine ⟨?_, hfin⟩
      simp only [lzwStates] at hst
      rcases List.mem_append.mp hst with hs | hs
      · exact lzwInv_scanl rest _ hinit st hs
      · simp at hs; subst hs; exact hfin
  constructor
  · rw [List.all_eq_true]
    intro cw hcw
    rw [decide_eq_true_eq]
    cases pixels with
    | nil =>
      have hfin : LzwInv (lzwFinalState [] 2) := by
        refine ⟨by decide, by decide, ?_, by decide⟩
        exact buildTable_codes
      exact hfin.2.2.2 cw hcw
    | cons p rest =>
      have hinit : LzwInv { lzwInit 4 5 2 with pfx := p } := lzwInv_init
      have hfold := lzwInv_foldl rest _ hinit
      have hfin : LzwInv (lzwFinalState (p :: rest) 2) := by
        have h1 := lzwInv_emit _ (List.foldl (lzwStep 4 5 2)
          { lzwInit 4 5 2 with pfx := p } rest).pfx hfold
        exact lzwInv_emit _ 5 h1
      exact hfin.2.2.2 cw hcw
  · rw [List.all_eq_true]
    intro st hst
    obtain ⟨⟨i3, i12, itab, _⟩, _⟩ := hmain st hst
    rw [Bool.and_eq_true, decide_eq_true_eq, List.all_eq_true]
    refine ⟨⟨i3, i12⟩, ?_⟩
    intro kv hkv
    rw [decide_eq_true_eq]
    exact itab kv hkv

/-- Witness for C2 on the symbol sequence [0,1,0,1,2,3,3,3]. -/
theorem lzw_code_width_and_table_bounds_witness :
    (([0, 1, 0, 1, 2, 3, 3, 3] : List Nat).all
        (fun s => decide (s < 4)) = true) ∧
    ((lzwFinalState [0, 1, 0, 1, 2, 3, 3, 3] 2).trace.all
        (fun cw => decide (3 ≤ cw.2 ∧ cw.2 ≤ 12)) = true ∧
     (lzwStates [0, 1, 0, 1, 2, 3, 3, 3] 2).all
        (fun st => decide (3 ≤ st.codeWidth ∧ st.codeWidth ≤ 12)
          && st.table.all (fun kv => decide (kv.2 < 4096))) = true) :=
  ⟨by decide, lzw_code_width_and_table_bounds _ (by decide)⟩
